import Mathlib

/-!
Verification development for the multi-chain wallet / UTXO transaction core
of the go-web3-scripts repository.  The definitions below are shallow
embeddings of the Go source: values in minor units (satoshis) are modelled
as `Int` (matching `btcutil.Amount`, an `int64`), byte strings as `List Nat`,
and external cryptographic library primitives (SHA-256, RIPEMD-160,
Keccak-256, secp256k1 operations, BIP32 child-key derivation) as explicit
function parameters, since their code is not part of this repository.
-/

/-! ## Litecoin UTXO transaction model (src/LITECOIN/main.go) -/

/-- One unspent output as returned by `ListUnspentMinMaxAddresses`:
transaction id bytes, output index, value in satoshis (the source converts
the listed float amount with `* 1e8` into a `btcutil.Amount`), and the
locking script bytes decoded from `utxo.ScriptPubKey`. -/
structure Utxo where
  txid : List Nat
  vout : Nat
  amount : Int
  scriptPubKey : List Nat
deriving Repr, DecidableEq

instance : Inhabited Utxo := ⟨⟨[], 0, 0, []⟩⟩

/-- Model of `wire.OutPoint`: the (txid, index) reference of an input. -/
structure OutPoint where
  hash : List Nat
  index : Nat
deriving Repr, DecidableEq

/-- Model of `wire.TxIn`: outpoint plus (initially empty) signature script. -/
structure TxIn where
  previousOutPoint : OutPoint
  signatureScript : List Nat
deriving Repr, DecidableEq

instance : Inhabited TxIn := ⟨⟨⟨[], 0⟩, []⟩⟩

/-- Model of `wire.TxOut`: value in satoshis and locking script. -/
structure TxOut where
  value : Int
  pkScript : List Nat
deriving Repr, DecidableEq

/-- Model of `wire.MsgTx` restricted to the fields the scripts manipulate. -/
structure MsgTx where
  txIn : List TxIn
  txOut : List TxOut
deriving Repr, DecidableEq

/-- The fee constant hard-coded in `SendLitecoinTransaction`
(`amount+1000` in the selection loop and `totalInput - amount - 1000` for
the change). -/
def feeSats : Int := 1000

/-- The dust threshold realised by the change conditional `if change > 0`:
a change output is created exactly when the change exceeds zero. -/
def dustThreshold : Int := 0

/-- Total value of a list of UTXOs. -/
def sumAmounts (l : List Utxo) : Int := (l.map Utxo.amount).sum

/-- Total value of the outputs of a transaction. -/
def txOutValueSum (tx : MsgTx) : Int := (tx.txOut.map TxOut.value).sum

/-- The input built from a UTXO: `wire.NewTxIn(outPoint, nil, nil)` with the
outpoint made of the decoded txid and `utxo.Vout`. -/
def mkTxIn (u : Utxo) : TxIn := ⟨⟨u.txid, u.vout⟩, []⟩

/-- The UTXO accumulation loop of `SendLitecoinTransaction`: each UTXO is
appended as an input and its value added to `totalInput`; the loop breaks
as soon as `totalInput >= amount+1000`.  Returns the consumed UTXOs and the
final `totalInput` (the second argument is `amount + feeSats` at the call
site, the third the running total). -/
def selectUtxos : List Utxo → Int → Int → List Utxo × Int
  | [], _, totalInput => ([], totalInput)
  | u :: rest, amountPlusFee, totalInput =>
    let t := totalInput + u.amount
    if amountPlusFee ≤ t then ([u], t)
    else
      let r := selectUtxos rest amountPlusFee t
      (u :: r.1, r.2)

/-- The transaction-building part of `SendLitecoinTransaction`: fails
(`log.Fatal`, modelled as `none`) when there is no unspent output or when
the accumulated inputs stay below `amount + 1000`; otherwise emits the
payment output and, when `change > 0`, the change output. -/
def sendLitecoinTransaction (utxos : List Utxo) (amount : Int)
    (toScript changeScript : List Nat) : Option MsgTx :=
  if utxos = [] then none
  else
    let sel := selectUtxos utxos (amount + feeSats) 0
    if sel.2 < amount + feeSats then none
    else
      let change := sel.2 - amount - feeSats
      some ⟨sel.1.map mkTxIn,
        if 0 < change then [⟨amount, toScript⟩, ⟨change, changeScript⟩]
        else [⟨amount, toScript⟩]⟩

/-- Replace the signature script of input `i` (`txIn.SignatureScript = sigScript`). -/
def setSigScript (tx : MsgTx) (i : Nat) (s : List Nat) : MsgTx :=
  { tx with txIn := tx.txIn.set i { tx.txIn.getD i default with signatureScript := s } }

/-- One iteration of the signing loop: the script handed to
`txscript.SignatureScript` for input `i` is the decoded `utxos[i].ScriptPubKey`.
The signer itself (`txscript.SignatureScript`) is an external library
function and is passed in as `sigFn`. -/
def signStep (sigFn : MsgTx → Nat → List Nat → List Nat) (utxos : List Utxo)
    (tx : MsgTx) (i : Nat) : MsgTx :=
  setSigScript tx i (sigFn tx i ((utxos.getD i default).scriptPubKey))

/-- The signing loop of `SendLitecoinTransaction`, processing inputs
`s, s+1, …, s+fuel-1` in order, mutating the transaction as it goes. -/
def signInputsFrom (sigFn : MsgTx → Nat → List Nat → List Nat)
    (utxos : List Utxo) : Nat → Nat → MsgTx → MsgTx
  | 0, _, tx => tx
  | fuel + 1, i, tx => signInputsFrom sigFn utxos fuel (i + 1) (signStep sigFn utxos tx i)

/-- `for i, txIn := range tx.TxIn { … }`: sign every input in order. -/
def signLitecoinTransaction (sigFn : MsgTx → Nat → List Nat → List Nat)
    (utxos : List Utxo) (tx : MsgTx) : MsgTx :=
  signInputsFrom sigFn utxos tx.txIn.length 0 tx

/-! ### Selection loop lemmas -/

theorem selectUtxos_fst_eq_take (need : Int) :
    ∀ (utxos : List Utxo) (acc : Int),
      (selectUtxos utxos need acc).1
        = utxos.take (selectUtxos utxos need acc).1.length := by
  intro utxos
  induction utxos with
  | nil => intro acc; simp [selectUtxos]
  | cons u rest ih =>
    intro acc
    simp only [selectUtxos]
    split
    · simp
    · simpa using ih (acc + u.amount)

theorem selectUtxos_snd_eq (need : Int) :
    ∀ (utxos : List Utxo) (acc : Int),
      (selectUtxos utxos need acc).2
        = acc + sumAmounts (selectUtxos utxos need acc).1 := by
  intro utxos
  induction utxos with
  | nil => intro acc; simp [selectUtxos, sumAmounts]
  | cons u rest ih =>
    intro acc
    simp only [selectUtxos]
    split
    · simp [sumAmounts]
    · have := ih (acc + u.amount)
      simp only [sumAmounts, List.map_cons, List.sum_cons] at this ⊢
      omega

theorem selectUtxos_all_of_lt (need : Int) :
    ∀ (utxos : List Utxo) (acc : Int),
      (selectUtxos utxos need acc).2 < need →
      (selectUtxos utxos need acc).1 = utxos := by
  intro utxos
  induction utxos with
  | nil => intro acc _; simp [selectUtxos]
  | cons u rest ih =>
    intro acc h
    by_cases hle : need ≤ acc + u.amount
    · simp only [selectUtxos, if_pos hle] at h
      omega
    · simp only [selectUtxos, if_neg hle] at h ⊢
      simpa using ih (acc + u.amount) h

theorem selectUtxos_min (need : Int) :
    ∀ (utxos : List Utxo) (acc : Int), acc < need →
      ∀ j, j < (selectUtxos utxos need acc).1.length →
        acc + sumAmounts ((selectUtxos utxos need acc).1.take j) < need := by
  intro utxos
  induction utxos with
  | nil => intro acc _ j hj; simp [selectUtxos] at hj
  | cons u rest ih =>
    intro acc hacc j hj
    by_cases hle : need ≤ acc + u.amount
    · simp only [selectUtxos, if_pos hle, List.length_cons, List.length_nil] at hj
      have hj0 : j = 0 := by omega
      subst hj0
      simpa [selectUtxos, if_pos hle, sumAmounts] using hacc
    · simp only [selectUtxos, if_neg hle, List.length_cons] at hj ⊢
      match j with
      | 0 => simpa [sumAmounts] using hacc
      | j + 1 =>
        have := ih (acc + u.amount) (by omega) j (by omega)
        simp only [List.take_succ_cons, sumAmounts, List.map_cons, List.sum_cons] at this ⊢
        omega

/-! ### Characterisation of a successful build -/

theorem sendLitecoin_char (utxos : List Utxo) (amount : Int) (ts cs : List Nat)
    (tx : MsgTx) (h : sendLitecoinTransaction utxos amount ts cs = some tx) :
    utxos ≠ [] ∧
    amount + feeSats ≤ (selectUtxos utxos (amount + feeSats) 0).2 ∧
    tx.txIn = (selectUtxos utxos (amount + feeSats) 0).1.map mkTxIn ∧
    tx.txOut = (if 0 < (selectUtxos utxos (amount + feeSats) 0).2 - amount - feeSats
      then [⟨amount, ts⟩,
        ⟨(selectUtxos utxos (amount + feeSats) 0).2 - amount - feeSats, cs⟩]
      else [⟨amount, ts⟩]) := by
  by_cases h0 : utxos = []
  · simp [sendLitecoinTransaction, h0] at h
  · simp only [sendLitecoinTransaction, if_neg h0] at h
    by_cases h1 : (selectUtxos utxos (amount + feeSats) 0).2 < amount + feeSats
    · rw [if_pos h1] at h
      exact absurd h (by simp)
    · rw [if_neg h1] at h
      have htx := Option.some.inj h
      refine ⟨h0, by omega, ?_, ?_⟩
      · rw [← htx]
      · rw [← htx]

theorem sendLitecoin_take (utxos : List Utxo) (amount : Int) (ts cs : List Nat)
    (tx : MsgTx) (h : sendLitecoinTransaction utxos amount ts cs = some tx) :
    (selectUtxos utxos (amount + feeSats) 0).1 = utxos.take tx.txIn.length ∧
    sumAmounts (utxos.take tx.txIn.length)
      = (selectUtxos utxos (amount + feeSats) 0).2 := by
  obtain ⟨-, -, hin, -⟩ := sendLitecoin_char utxos amount ts cs tx h
  have hlen : tx.txIn.length = (selectUtxos utxos (amount + feeSats) 0).1.length := by
    rw [hin, List.length_map]
  have hfst := selectUtxos_fst_eq_take (amount + feeSats) utxos 0
  have hsnd := selectUtxos_snd_eq (amount + feeSats) utxos 0
  constructor
  · rw [hlen]; exact hfst
  · rw [hlen, ← hfst]; omega

theorem sendLitecoin_outSum (utxos : List Utxo) (amount : Int) (ts cs : List Nat)
    (tx : MsgTx) (h : sendLitecoinTransaction utxos amount ts cs = some tx) :
    txOutValueSum tx = sumAmounts (utxos.take tx.txIn.length) - feeSats := by
  obtain ⟨-, hge, -, hout⟩ := sendLitecoin_char utxos amount ts cs tx h
  obtain ⟨-, hsum⟩ := sendLitecoin_take utxos amount ts cs tx h
  rw [txOutValueSum, hout]
  by_cases hch : 0 < (selectUtxos utxos (amount + feeSats) 0).2 - amount - feeSats
  · rw [if_pos hch]
    simp only [List.map_cons, List.map_nil, List.sum_cons, List.sum_nil]
    omega
  · rw [if_neg hch]
    simp only [List.map_cons, List.map_nil, List.sum_cons, List.sum_nil]
    omega

/-- Claim C2: for every transaction that `SendLitecoinTransaction` succeeds
in building, the sum of the selected input values equals the sum of the
output values (payment output plus change output when present) plus the
fee, exactly, with fee ≥ 0. -/
theorem litecoin_fee_coverage (utxos : List Utxo) (amount : Int)
    (ts cs : List Nat) (tx : MsgTx)
    (h : sendLitecoinTransaction utxos amount ts cs = some tx) :
    sumAmounts (utxos.take tx.txIn.length) = txOutValueSum tx + feeSats ∧
    0 ≤ feeSats := by
  have hout := sendLitecoin_outSum utxos amount ts cs tx h
  have hf : feeSats = 1000 := rfl
  omega

/-- Claim C10: the Litecoin transfer uses a fixed fee of exactly 1000
satoshis: whenever `SendLitecoinTransaction` builds a transaction, total
input value minus total output value equals exactly 1000, whatever the
input count, transaction size or amounts. -/
theorem litecoin_fixed_fee_1000 (utxos : List Utxo) (amount : Int)
    (ts cs : List Nat) (tx : MsgTx)
    (h : sendLitecoinTransaction utxos amount ts cs = some tx) :
    sumAmounts (utxos.take tx.txIn.length) - txOutValueSum tx = 1000 ∧
    feeSats = 1000 := by
  have hout := sendLitecoin_outSum utxos amount ts cs tx h
  have hf : feeSats = 1000 := rfl
  omega

/-! ### Claims C3, C4, C5: selection order, insufficiency, outputs -/

theorem sumAmounts_take_le (l : List Utxo) (k : Nat)
    (hnn : ∀ u ∈ l, 0 ≤ u.amount) : sumAmounts (l.take k) ≤ sumAmounts l := by
  have hsplit : sumAmounts l = sumAmounts (l.take k) + sumAmounts (l.drop k) := by
    conv_lhs => rw [← List.take_append_drop k l]
    simp [sumAmounts, List.map_append, List.sum_append]
  have hnnd : 0 ≤ sumAmounts (l.drop k) := by
    apply List.sum_nonneg
    intro x hx
    obtain ⟨u, hu, rfl⟩ := List.mem_map.mp hx
    exact hnn u (List.drop_subset k l hu)
  omega

def fiveU : Utxo := ⟨[1], 0, 5, [1]⟩

def threeU : Utxo := ⟨[2], 0, 3, [2]⟩

def twoU : Utxo := ⟨[3], 0, 2, [3]⟩

/-- The spec's coin-selection example: UTXOs of values 5, 3, 2 units. -/
def fiveThreeTwo : List Utxo := [fiveU, threeU, twoU]

/-- Claim C3: coin selection accumulates UTXOs in the order presented,
stopping as soon as the cumulative input value reaches the target plus the
estimated fee, so the chosen set is always a prefix of the supplied UTXO
list (every shorter choice falls short); in particular for values [5,3,2],
target 6 and fee 1 the loop consumes the 5 and the 3 and leaves change 1. -/
theorem litecoin_selection_ordered :
    (∀ (utxos : List Utxo) (amount : Int) (ts cs : List Nat) (tx : MsgTx),
      0 ≤ amount → sendLitecoinTransaction utxos amount ts cs = some tx →
      tx.txIn = (utxos.take tx.txIn.length).map mkTxIn ∧
      amount + feeSats ≤ sumAmounts (utxos.take tx.txIn.length) ∧
      (∀ j, j < tx.txIn.length → sumAmounts (utxos.take j) < amount + feeSats)) ∧
    (selectUtxos fiveThreeTwo (6 + 1) 0 = ([fiveU, threeU], 8) ∧
      (selectUtxos fiveThreeTwo (6 + 1) 0).2 - 6 - 1 = 1) := by
  constructor
  · intro utxos amount ts cs tx hamt h
    obtain ⟨-, hge, hin, -⟩ := sendLitecoin_char utxos amount ts cs tx h
    obtain ⟨hfst, hsum⟩ := sendLitecoin_take utxos amount ts cs tx h
    have hlen : tx.txIn.length = (selectUtxos utxos (amount + feeSats) 0).1.length := by
      rw [hin, List.length_map]
    refine ⟨by conv_lhs => rw [hin, hfst], by omega, ?_⟩
    intro j hj
    have hf : feeSats = 1000 := rfl
    have hmin := selectUtxos_min (amount + feeSats) utxos 0 (by omega) j (by omega)
    have htk : (selectUtxos utxos (amount + feeSats) 0).1.take j = utxos.take j := by
      rw [hfst, List.take_take]
      congr 1
      omega
    rw [htk] at hmin
    omega
  · constructor
    · decide
    · decide

def insufficientU1 : Utxo := ⟨[1], 0, 3, [1]⟩

def insufficientU2 : Utxo := ⟨[2], 0, 1, [2]⟩

/-- The spec's insufficiency example: available UTXOs summing to 4 units. -/
def insufficientUtxos : List Utxo := [insufficientU1, insufficientU2]

/-- Claim C4: the build fails with InsufficientFunds (modelled as `none`)
exactly when no prefix of the available UTXOs covers the target amount plus
the fee; in particular for UTXOs summing to 4 and target 10 no transaction
is produced. -/
theorem litecoin_insufficient_funds_iff :
    (∀ (utxos : List Utxo) (amount : Int) (ts cs : List Nat),
      0 ≤ amount → (∀ u ∈ utxos, 0 ≤ u.amount) →
      (sendLitecoinTransaction utxos amount ts cs = none ↔
        ∀ k, k < utxos.length + 1 →
          sumAmounts (utxos.take k) < amount + feeSats)) ∧
    sendLitecoinTransaction insufficientUtxos 10 [9] [8] = none := by
  constructor
  · intro utxos amount ts cs hamt hnn
    have hf : feeSats = 1000 := rfl
    constructor
    · intro h k hk
      by_cases h0 : utxos = []
      · subst h0
        simp [sumAmounts]
        omega
      · simp only [sendLitecoinTransaction, if_neg h0] at h
        by_cases h1 : (selectUtxos utxos (amount + feeSats) 0).2 < amount + feeSats
        · have hall := selectUtxos_all_of_lt (amount + feeSats) utxos 0 h1
          have hsnd := selectUtxos_snd_eq (amount + feeSats) utxos 0
          rw [hall] at hsnd
          have hle := sumAmounts_take_le utxos k hnn
          omega
        · rw [if_neg h1] at h
          exact absurd h (by simp)
    · intro hall
      by_cases h0 : utxos = []
      · simp [sendLitecoinTransaction, h0]
      · have hfst := selectUtxos_fst_eq_take (amount + feeSats) utxos 0
        have hsnd := selectUtxos_snd_eq (amount + feeSats) utxos 0
        have hlenle : (selectUtxos utxos (amount + feeSats) 0).1.length ≤ utxos.length := by
          rw [hfst, List.length_take]
          omega
        have hk := hall (selectUtxos utxos (amount + feeSats) 0).1.length (by omega)
        rw [← hfst] at hk
        simp only [sendLitecoinTransaction, if_neg h0]
        rw [if_pos (by omega)]
  · decide

/-- Claim C5: the built transaction has exactly one payment output
(destination, amount) first and, only when the leftover change exceeds the
dust threshold (which the code fixes at 0 through the `change > 0` switch),
exactly one change output (changeAddress, change) second; at or below the
threshold the change (then exactly 0) is left to the fee instead of
creating an output. -/
theorem litecoin_outputs_payment_then_change (utxos : List Utxo)
    (amount : Int) (ts cs : List Nat) (tx : MsgTx)
    (h : sendLitecoinTransaction utxos amount ts cs = some tx) :
    0 ≤ sumAmounts (utxos.take tx.txIn.length) - amount - feeSats ∧
    tx.txOut =
      (if dustThreshold < sumAmounts (utxos.take tx.txIn.length) - amount - feeSats
       then [⟨amount, ts⟩,
         ⟨sumAmounts (utxos.take tx.txIn.length) - amount - feeSats, cs⟩]
       else [⟨amount, ts⟩]) := by
  obtain ⟨-, hge, -, hout⟩ := sendLitecoin_char utxos amount ts cs tx h
  obtain ⟨-, hsum⟩ := sendLitecoin_take utxos amount ts cs tx h
  have hd : dustThreshold = 0 := rfl
  rw [hsum, hout, hd]
  exact ⟨by omega, rfl⟩

/-! ### Claim C9: input/UTXO index alignment through building and signing -/

theorem setSigScript_length (tx : MsgTx) (i : Nat) (s : List Nat) :
    (setSigScript tx i s).txIn.length = tx.txIn.length := by
  simp [setSigScript]

theorem setSigScript_getD_ne (tx : MsgTx) (i j : Nat) (s : List Nat)
    (hij : i ≠ j) :
    (setSigScript tx i s).txIn.getD j default = tx.txIn.getD j default := by
  simp [setSigScript, List.getD_eq_getElem?_getD, List.getElem?_set_ne hij]

theorem setSigScript_getD_eq (tx : MsgTx) (i : Nat) (s : List Nat)
    (hi : i < tx.txIn.length) :
    (setSigScript tx i s).txIn.getD i default
      = { tx.txIn.getD i default with signatureScript := s } := by
  simp [setSigScript, List.getD_eq_getElem?_getD, List.getElem?_set_eq_of_lt _ hi]

theorem signInputsFrom_length (sigFn : MsgTx → Nat → List Nat → List Nat)
    (utxos : List Utxo) :
    ∀ (fuel s : Nat) (tx : MsgTx),
      (signInputsFrom sigFn utxos fuel s tx).txIn.length = tx.txIn.length := by
  intro fuel
  induction fuel with
  | zero => intro s tx; rfl
  | succ n ih =>
    intro s tx
    simp only [signInputsFrom]
    rw [ih, signStep, setSigScript_length]

theorem signInputsFrom_getD_lt (sigFn : MsgTx → Nat → List Nat → List Nat)
    (utxos : List Utxo) :
    ∀ (fuel s : Nat) (tx : MsgTx) (j : Nat), j < s →
      (signInputsFrom sigFn utxos fuel s tx).txIn.getD j default
        = tx.txIn.getD j default := by
  intro fuel
  induction fuel with
  | zero => intro s tx j _; rfl
  | succ n ih =>
    intro s tx j hj
    simp only [signInputsFrom]
    rw [ih (s + 1) _ j (by omega), signStep, setSigScript_getD_ne _ _ _ _ (by omega)]

theorem signInputsFrom_getD_main (sigFn : MsgTx → Nat → List Nat → List Nat)
    (utxos : List Utxo) :
    ∀ (fuel s : Nat) (tx : MsgTx) (i : Nat), s ≤ i → i < s + fuel →
      i < tx.txIn.length →
      ((signInputsFrom sigFn utxos fuel s tx).txIn.getD i default).signatureScript
        = sigFn (signInputsFrom sigFn utxos (i - s) s tx) i
            ((utxos.getD i default).scriptPubKey) := by
  intro fuel
  induction fuel with
  | zero => intro s tx i h1 h2 _; omega
  | succ n ih =>
    intro s tx i h1 h2 h3
    simp only [signInputsFrom]
    by_cases hi : i = s
    · subst hi
      rw [signInputsFrom_getD_lt sigFn utxos n (i + 1) _ i (by omega)]
      rw [Nat.sub_self]
      simp only [signInputsFrom]
      rw [signStep, setSigScript_getD_eq tx i _ h3]
    · have hstep : i - s = (i - (s + 1)) + 1 := by omega
      rw [hstep]
      simp only [signInputsFrom]
      exact ih (s + 1) (signStep sigFn utxos tx s) i (by omega) (by omega)
        (by rw [signStep, setSigScript_length]; exact h3)

/-- Claim C9: in `SendLitecoinTransaction` input and UTXO indices stay
aligned: input `i`'s outpoint references `utxos[i]`, and the locking
script handed to the signer for input `i` is the scriptPubKey of that same
`utxos[i]`, because inputs are appended in list order and selection takes a
prefix. -/
theorem litecoin_input_utxo_alignment (utxos : List Utxo) (amount : Int)
    (ts cs : List Nat) (tx : MsgTx)
    (h : sendLitecoinTransaction utxos amount ts cs = some tx) :
    tx.txIn.length ≤ utxos.length ∧
    (∀ i, i < tx.txIn.length →
      (tx.txIn.getD i default).previousOutPoint
        = ⟨(utxos.getD i default).txid, (utxos.getD i default).vout⟩) ∧
    (∀ (sigFn : MsgTx → Nat → List Nat → List Nat) (i : Nat),
      i < tx.txIn.length →
      ((signLitecoinTransaction sigFn utxos tx).txIn.getD i default).signatureScript
        = sigFn (signInputsFrom sigFn utxos i 0 tx) i
            ((utxos.getD i default).scriptPubKey)) := by
  obtain ⟨-, -, hin, -⟩ := sendLitecoin_char utxos amount ts cs tx h
  obtain ⟨hfst, -⟩ := sendLitecoin_take utxos amount ts cs tx h
  have hctx : tx.txIn = (utxos.take tx.txIn.length).map mkTxIn := by
    conv_lhs => rw [hin, hfst]
  have h1 : tx.txIn.length = (selectUtxos utxos (amount + feeSats) 0).1.length := by
    rw [hin, List.length_map]
  have h2 : (selectUtxos utxos (amount + feeSats) 0).1.length
      = min tx.txIn.length utxos.length := by
    rw [hfst, List.length_take]
  have hle : tx.txIn.length ≤ utxos.length := by omega
  refine ⟨hle, ?_, ?_⟩
  · intro i hi
    have hiu : i < utxos.length := by omega
    have key : tx.txIn.getD i default = mkTxIn (utxos.getD i default) := by
      rw [List.getD_eq_getElem?_getD, List.getElem?_eq_getElem hi,
        List.getD_eq_getElem?_getD, List.getElem?_eq_getElem hiu]
      simp only [Option.getD_some]
      rw [List.getElem_of_eq hctx hi]
      simp [List.getElem_map, List.getElem_take]
    rw [key]
    rfl
  · intro sigFn i hi
    have := signInputsFrom_getD_main sigFn utxos tx.txIn.length 0 tx i
      (by omega) (by omega) hi
    simpa [signLitecoinTransaction] using this

/-! ## Stacks account creation (src/stacks_BC/main.go) -/

/-- Model of `bip32.Key` (tyler-smith/go-bip32), the extended key produced
by `NewMasterKey` and `NewChildKey`: key bytes, chain code and bookkeeping
fields.  The HMAC-SHA512 child-key computation lives in that library, so
derivation steps are taken as explicit function parameters below. -/
structure ExtendedKey where
  key : List Nat
  chainCode : List Nat
  childNumber : Nat
  depth : Nat
  isPrivate : Bool
deriving Repr, DecidableEq

/-- Sequential application of `NewChildKey` over a derivation path, exactly
the loop `for _, index := range path { key, err = key.NewChildKey(index) }`
of `createStacksAccount`; a failing step (`err != nil`, `log.Fatalf`) aborts
the whole derivation. -/
def derivePath (newChildKey : ExtendedKey → Nat → Option ExtendedKey) :
    ExtendedKey → List Nat → Option ExtendedKey
  | k, [] => some k
  | k, i :: rest =>
    match newChildKey k i with
    | none => none
    | some k2 => derivePath newChildKey k2 rest

/-- The Stacks derivation path of `createStacksAccount`
(`m/44'/5757'/0'/0/0`): `[]uint32{44 + 0x80000000, 5757 + 0x80000000,
0 + 0x80000000, 0, 0}`. -/
def stacksPath : List Nat := [44 + 0x80000000, 5757 + 0x80000000, 0 + 0x80000000, 0, 0]

/-- A 32-bit derivation index is hardened when it is at least `0x80000000`,
i.e. when its high bit is set. -/
def isHardened (i : Nat) : Bool := decide (0x80000000 ≤ i)

/-- The five child derivations of `createStacksAccount` written out one
after another, as the unrolled loop performs them. -/
def deriveStacksUnrolled (newChildKey : ExtendedKey → Nat → Option ExtendedKey)
    (masterKey : ExtendedKey) : Option ExtendedKey :=
  (newChildKey masterKey (44 + 0x80000000)).bind fun k1 =>
    (newChildKey k1 (5757 + 0x80000000)).bind fun k2 =>
      (newChildKey k2 (0 + 0x80000000)).bind fun k3 =>
        (newChildKey k3 0).bind fun k4 =>
          newChildKey k4 0

/-- `hash160` from the source: `RIPEMD160(SHA256(data))`, with the two hash
functions supplied as parameters (they live in external crypto libraries). -/
def hash160 (sha256fn ripemd160fn : List Nat → List Nat) (data : List Nat) : List Nat :=
  ripemd160fn (sha256fn data)

/-- Lower-case hexadecimal digits as used by Go's `hex.EncodeToString`. -/
def hexDigits : List Char := "0123456789abcdef".toList

/-- Two hex characters of one byte. -/
def byteToHex (b : Nat) : List Char := [hexDigits.getD (b / 16 % 16) '0', hexDigits.getD (b % 16) '0']

/-- `hex.EncodeToString`: concatenated per-byte hex pairs. -/
def hexEncode (bytes : List Nat) : List Char := (bytes.map byteToHex).flatten

/-- `encodeC32Address` from the source: prepend the version byte to the
hash, hex-encode, keep only the first 32 hex characters, and glue on the
human prefix "SP" (mainnet) or "ST" (version 21, testnet).  The source
comments call this a simplified placeholder for real C32. -/
def encodeC32Address (version : Nat) (hash : List Nat) : String :=
  let data := version :: hash
  let pfx := if version = 21 then "ST" else "SP"
  pfx ++ String.mk ((hexEncode data).take 32)

/-- `createStacksAccount` after the mnemonic/seed generation: master key
from the seed (`bip32.NewMasterKey`), then the path loop; the resulting
private key bytes are `key.Key`. -/
def createStacksKey (newMasterKey : List Nat → Option ExtendedKey)
    (newChildKey : ExtendedKey → Nat → Option ExtendedKey)
    (seed : List Nat) : Option (List Nat) :=
  (newMasterKey seed).bind fun masterKey =>
    (derivePath newChildKey masterKey stacksPath).map ExtendedKey.key

/-- The address part of `createStacksAccount`: compressed public key of the
derived private key (via btcec, parameter `serializeCompressed`), its
hash160, version byte 26 (mainnet) or 21 (testnet), C32-encoded. -/
def createStacksAddress (newMasterKey : List Nat → Option ExtendedKey)
    (newChildKey : ExtendedKey → Nat → Option ExtendedKey)
    (sha256fn ripemd160fn serializeCompressed : List Nat → List Nat)
    (seed : List Nat) (isMainnet : Bool) : Option String :=
  (createStacksKey newMasterKey newChildKey seed).map fun privateKey =>
    encodeC32Address (if isMainnet then 26 else 21)
      (hash160 sha256fn ripemd160fn (serializeCompressed privateKey))

/-- Claim C1: hierarchical key derivation is deterministic: the derivation
is a pure function of seed and path, so two runs on the same seed and path
yield byte-identical private keys, and therefore identical addresses. -/
theorem stacks_derivation_deterministic
    (newMasterKey : List Nat → Option ExtendedKey)
    (newChildKey : ExtendedKey → Nat → Option ExtendedKey)
    (sha256fn ripemd160fn serializeCompressed : List Nat → List Nat)
    (masterKey : ExtendedKey) (isMainnet : Bool)
    (seed1 seed2 path1 path2 : List Nat)
    (hseed : seed1 = seed2) (hpath : path1 = path2) :
    derivePath newChildKey masterKey path1 = derivePath newChildKey masterKey path2 ∧
    createStacksKey newMasterKey newChildKey seed1
      = createStacksKey newMasterKey newChildKey seed2 ∧
    createStacksAddress newMasterKey newChildKey sha256fn ripemd160fn
        serializeCompressed seed1 isMainnet
      = createStacksAddress newMasterKey newChildKey sha256fn ripemd160fn
          serializeCompressed seed2 isMainnet := by
  subst hseed
  subst hpath
  exact ⟨rfl, rfl, rfl⟩

def cSeed : List Nat := [1, 2, 3, 4]

def cMaster (seed : List Nat) : Option ExtendedKey := some ⟨seed, [7], 0, 0, true⟩

def cChild (k : ExtendedKey) (i : Nat) : Option ExtendedKey :=
  some ⟨(i % 256) :: k.key, k.chainCode, i, k.depth + 1, true⟩

theorem stacks_derivation_deterministic_witness :
    derivePath cChild ⟨[5], [7], 0, 0, true⟩ stacksPath
      = derivePath cChild ⟨[5], [7], 0, 0, true⟩ stacksPath ∧
    createStacksKey cMaster cChild cSeed = createStacksKey cMaster cChild cSeed ∧
    createStacksAddress cMaster cChild id id id cSeed true
      = createStacksAddress cMaster cChild id id id cSeed true :=
  stacks_derivation_deterministic cMaster cChild id id id ⟨[5], [7], 0, 0, true⟩
    true cSeed cSeed stacksPath stacksPath rfl rfl

theorem derivePath_cons (newChildKey : ExtendedKey → Nat → Option ExtendedKey)
    (k : ExtendedKey) (i : Nat) (rest : List Nat) :
    derivePath newChildKey k (i :: rest)
      = (newChildKey k i).bind fun k2 => derivePath newChildKey k2 rest := by
  cases h : newChildKey k i <;> simp [derivePath, h]

/-- Claim C6: DerivePath applies DeriveChild sequentially over the path
elements, the hardened flag of each step being its high bit (index ≥ 2^31);
the Stacks derivation realizes this by deriving child keys one after
another for the path [44+2^31, 5757+2^31, 0+2^31, 0, 0]. -/
theorem stacks_path_sequential_derivation
    (newChildKey : ExtendedKey → Nat → Option ExtendedKey)
    (masterKey : ExtendedKey) :
    deriveStacksUnrolled newChildKey masterKey
      = derivePath newChildKey masterKey stacksPath ∧
    stacksPath = [44 + 2 ^ 31, 5757 + 2 ^ 31, 0 + 2 ^ 31, 0, 0] ∧
    stacksPath.map isHardened = [true, true, true, false, false] ∧
    (∀ i, i < 2 ^ 32 → (isHardened i = true ↔ i.testBit 31 = true)) := by
  refine ⟨?_, by decide, by decide, ?_⟩
  · simp only [stacksPath, derivePath_cons]
    simp [deriveStacksUnrolled, derivePath]
  · intro i hi
    have hp1 : (2:Nat) ^ 32 = 2 ^ 31 * 2 := by norm_num
    have hp2 : (2:Nat) ^ 31 = 2147483648 := by norm_num
    rw [Nat.testBit_to_div_mod]
    simp only [isHardened, decide_eq_true_eq]
    omega

theorem stacks_path_sequential_derivation_witness :
    (deriveStacksUnrolled cChild ⟨[5], [7], 0, 0, true⟩
      = derivePath cChild ⟨[5], [7], 0, 0, true⟩ stacksPath) ∧
    (isHardened (44 + 0x80000000) = true ↔ Nat.testBit (44 + 0x80000000) 31 = true) ∧
    (isHardened 0 = true ↔ Nat.testBit 0 31 = true) :=
  ⟨(stacks_path_sequential_derivation cChild ⟨[5], [7], 0, 0, true⟩).1,
    (stacks_path_sequential_derivation cChild ⟨[5], [7], 0, 0, true⟩).2.2.2
      (44 + 0x80000000) (by norm_num),
    (stacks_path_sequential_derivation cChild ⟨[5], [7], 0, 0, true⟩).2.2.2
      0 (by norm_num)⟩

/-! ### Claim C8: the placeholder C32 encoder cannot round-trip -/

def c8hash1 : List Nat := List.replicate 20 0

def c8hash2 : List Nat := List.replicate 15 0 ++ 1 :: List.replicate 4 0

/-- Claim C8 is refuted by the code: `encodeC32Address` keeps only the
first 32 hex characters of version‖hash, i.e. the version byte and 15 of
the 20 payload bytes, so two 20-byte hashes differing only in the dropped
tail produce the same address string; no decode can recover the original
(payloadHash, version) from it. -/
theorem c32_encode_collision :
    encodeC32Address 26 c8hash1 = encodeC32Address 26 c8hash2 ∧
    c8hash1 ≠ c8hash2 ∧ c8hash1.length = 20 ∧ c8hash2.length = 20 := by
  decide

/-! ## Tron address derivation (src/tron/main.go) -/

/-- The Base58 alphabet used by mr-tron/base58 (Bitcoin alphabet). -/
def base58Alphabet : List Char :=
  "123456789ABCDEFGHJKLMNPQRSTUVWXYZabcdefghijkmnopqrstuvwxyz".toList

/-- Big-endian byte string as a natural number. -/
def bytesToNat : List Nat → Nat
  | [] => 0
  | b :: rest => b * 256 ^ rest.length + bytesToNat rest

/-- Leading zero bytes, which Base58 preserves as leading '1' characters. -/
def countLeadingZeros : List Nat → Nat
  | [] => 0
  | b :: rest => if b = 0 then countLeadingZeros rest + 1 else 0

/-- `base58.Encode`: one '1' per leading zero byte, then the big-endian
base-58 digits of the value. -/
def base58Encode (bytes : List Nat) : String :=
  String.mk (List.replicate (countLeadingZeros bytes) '1'
    ++ ((Nat.digits 58 (bytesToNat bytes)).reverse.map
      (fun d => base58Alphabet.getD d '1')))

/-- The last `n` elements of a list. -/
def takeLast (n : Nat) (l : List α) : List α := l.drop (l.length - n)

/-- `deriveTronAddress` from the source: Keccak256 of the uncompressed
public key bytes with the leading format byte removed (`publicKeyBytes[1:]`),
`hash[12:]` as the 20-byte payload, version byte 0x41 in front, first 4
bytes of SHA256(SHA256(versioned payload)) appended as checksum, and the
whole Base58-encoded.  Keccak-256 and SHA-256 live in external libraries
and are passed as parameters. -/
def deriveTronAddress (keccak256fn sha256fn : List Nat → List Nat)
    (publicKeyBytes : List Nat) : String :=
  let hash := keccak256fn (publicKeyBytes.drop 1)
  let ethAddress := hash.drop 12
  let tronAddrBytes := 0x41 :: ethAddress
  let h1 := sha256fn tronAddrBytes
  let h2 := sha256fn h1
  let checksum := h2.take 4
  base58Encode (tronAddrBytes ++ checksum)

/-- The Tron address computation as the spec words it: Keccak256 of the
uncompressed public key minus the leading format byte, the LAST 20 BYTES
of the digest as payload, version byte 0x41 prefixed, first 4 bytes of
SHA256(SHA256(versioned payload)) as checksum, Base58-encoded. -/
def specTronAddress (keccak256fn sha256fn : List Nat → List Nat)
    (publicKeyBytes : List Nat) : String :=
  let payload := takeLast 20 (keccak256fn (publicKeyBytes.drop 1))
  let versioned := 0x41 :: payload
  let checksum := (sha256fn (sha256fn versioned)).take 4
  base58Encode (versioned ++ checksum)

/-- Claim C7: whenever Keccak-256 returns its (always) 32-byte digest, the
source's `hash[12:]` payload is exactly the digest's last 20 bytes, so
`deriveTronAddress` computes precisely the address the spec describes:
version byte 0x41, double-SHA256 4-byte checksum, Base58 encoding. -/
theorem tron_address_derivation_spec
    (keccak256fn sha256fn : List Nat → List Nat) (publicKeyBytes : List Nat)
    (hlen : (keccak256fn (publicKeyBytes.drop 1)).length = 32) :
    deriveTronAddress keccak256fn sha256fn publicKeyBytes
      = specTronAddress keccak256fn sha256fn publicKeyBytes := by
  simp only [deriveTronAddress, specTronAddress, takeLast, hlen]

def cKeccak (_bytes : List Nat) : List Nat := List.range 32

def cSha (bytes : List Nat) : List Nat := bytes

theorem tron_address_derivation_spec_witness :
    deriveTronAddress cKeccak cSha (List.range 65)
      = specTronAddress cKeccak cSha (List.range 65) :=
  tron_address_derivation_spec cKeccak cSha (List.range 65) (by simp [cKeccak])

/-! ## Concrete Litecoin build used by the witnesses -/

def wUtxo1 : Utxo := ⟨[17], 0, 5000, [1, 2]⟩

def wUtxo2 : Utxo := ⟨[34], 1, 3000, [3, 4]⟩

def wUtxo3 : Utxo := ⟨[51], 2, 2000, [5, 6]⟩

def wUtxos : List Utxo := [wUtxo1, wUtxo2, wUtxo3]

def wTx : MsgTx :=
  ⟨[⟨⟨[17], 0⟩, []⟩, ⟨⟨[34], 1⟩, []⟩], [⟨6000, [9]⟩, ⟨1000, [8]⟩]⟩

theorem wTx_build : sendLitecoinTransaction wUtxos 6000 [9] [8] = some wTx := by
  decide

def wSig (_tx : MsgTx) (i : Nat) (script : List Nat) : List Nat := i :: script

theorem litecoin_fee_coverage_witness :
    sumAmounts (wUtxos.take wTx.txIn.length) = txOutValueSum wTx + feeSats ∧
    (0 : Int) ≤ feeSats :=
  litecoin_fee_coverage wUtxos 6000 [9] [8] wTx wTx_build

theorem litecoin_fixed_fee_1000_witness :
    sumAmounts (wUtxos.take wTx.txIn.length) - txOutValueSum wTx = 1000 ∧
    feeSats = 1000 :=
  litecoin_fixed_fee_1000 wUtxos 6000 [9] [8] wTx wTx_build

theorem litecoin_selection_ordered_witness :
    wTx.txIn = (wUtxos.take wTx.txIn.length).map mkTxIn ∧
    6000 + feeSats ≤ sumAmounts (wUtxos.take wTx.txIn.length) ∧
    (∀ j, j < wTx.txIn.length → sumAmounts (wUtxos.take j) < 6000 + feeSats) :=
  litecoin_selection_ordered.1 wUtxos 6000 [9] [8] wTx (by decide) wTx_build

theorem litecoin_insufficient_funds_iff_witness :
    sendLitecoinTransaction insufficientUtxos 10 [9] [8] = none ↔
      (∀ k, k < insufficientUtxos.length + 1 →
        sumAmounts (insufficientUtxos.take k) < 10 + feeSats) :=
  litecoin_insufficient_funds_iff.1 insufficientUtxos 10 [9] [8]
    (by decide) (by decide)

theorem litecoin_outputs_payment_then_change_witness :
    0 ≤ sumAmounts (wUtxos.take wTx.txIn.length) - 6000 - feeSats ∧
    wTx.txOut =
      (if dustThreshold < sumAmounts (wUtxos.take wTx.txIn.length) - 6000 - feeSats
       then [⟨6000, [9]⟩,
         ⟨sumAmounts (wUtxos.take wTx.txIn.length) - 6000 - feeSats, [8]⟩]
       else [⟨6000, [9]⟩]) :=
  litecoin_outputs_payment_then_change wUtxos 6000 [9] [8] wTx wTx_build

theorem litecoin_input_utxo_alignment_witness :
    (wTx.txIn.getD 0 default).previousOutPoint
      = ⟨(wUtxos.getD 0 default).txid, (wUtxos.getD 0 default).vout⟩ ∧
    ((signLitecoinTransaction wSig wUtxos wTx).txIn.getD 1 default).signatureScript
      = wSig (signInputsFrom wSig wUtxos 1 0 wTx) 1
          ((wUtxos.getD 1 default).scriptPubKey) := by
  have h := litecoin_input_utxo_alignment wUtxos 6000 [9] [8] wTx wTx_build
  exact ⟨h.2.1 0 (by decide), h.2.2 wSig 1 (by decide)⟩
